import Mathlib

/-!
Verification development for the one-billion-row-challenge style aggregator
in calculateAverageMine.py.

The file is modelled as a list of bytes (natural numbers); the newline byte
is 10, the semicolon delimiter is 59.  Measurement values, which the source
handles as Python floats, are modelled as exact rationals.  Loops of the
source that walk forward through the file are written with an explicit fuel
argument (the source loops are unbounded while/for loops); a fuel budget of
one more than the file length is proved sufficient, so the fuelled
definitions compute by kernel reduction.
-/

namespace OneBRC

/-- The newline byte. -/
def NL : Nat := 10

/-- Model of the nested helper is_line_end in get_file_chunks: position 0 is
always a boundary, otherwise the byte at position - 1 must be a newline
(reading past the end of the file yields no byte, hence false, which the
default value 0 reproduces). -/
def is_line_end (file : List Nat) (position : Nat) : Bool :=
  if position = 0 then true else file.getD (position - 1) 0 == NL

/-- Length of the line starting at the head of the list: the number of bytes
up to and including the first newline, or the whole list when no newline
remains.  This is the length of the string Python readline returns. -/
def line_len : List Nat → Nat
  | [] => 0
  | b :: rest => if b = NL then 1 else 1 + line_len rest

/-- Model of the nested helper next_line in get_file_chunks (seek, readline,
tell): the offset just after the next newline at or after the given
position, or end of file. -/
def next_line (file : List Nat) (position : Nat) : Nat :=
  position + line_len (file.drop position)

/-- Model of the backward boundary search in get_file_chunks
(while not is_line_end(chunk_end): chunk_end -= 1). -/
def align_end (file : List Nat) : Nat → Nat
  | 0 => 0
  | p + 1 => if is_line_end file (p + 1) then p + 1 else align_end file p

/-- One iteration of the planning loop body of get_file_chunks: propose
min(file_size, chunk_start + chunk_size), scan backward to a line boundary,
and if that collapses the chunk advance forward to the next line end. -/
def chunk_step (file : List Nat) (chunk_size chunk_start : Nat) : Nat :=
  let ce := align_end file (min file.length (chunk_start + chunk_size))
  if chunk_start = ce then next_line file ce else ce

/-- The while loop of get_file_chunks, with explicit fuel.  Each emitted
pair is the (chunk_start, chunk_end) recorded in start_end (the filename
component of the source tuple is dropped).  Fuel file.length + 1 is proved
sufficient below. -/
def chunks_loop (file : List Nat) (chunk_size : Nat) : Nat → Nat → Option (List (Nat × Nat))
  | 0, _ => none
  | fuel + 1, chunk_start =>
    if chunk_start < file.length then
      (chunks_loop file chunk_size fuel (chunk_step file chunk_size chunk_start)).map
        (fun rest => (chunk_start, chunk_step file chunk_size chunk_start) :: rest)
    else some []

/-- Failure modes of get_file_chunks.  The source performs no validation of
its own: a clamped worker count of 0 makes file_size // cpu_count raise
ZeroDivisionError.  nonTermination marks fuel exhaustion of the model loop
and is proved unreachable. -/
inductive PlanError where
  | zeroDivision
  | nonTermination
deriving DecidableEq

/-- Model of get_file_chunks.  os_cpu_count stands for os.cpu_count(); the
source clamps the requested count with min(os.cpu_count(), cpu_count) and
divides the file size by it. -/
def get_file_chunks (file : List Nat) (cpu_count os_cpu_count : Nat) :
    Except PlanError (Nat × List (Nat × Nat)) :=
  let cpu := min os_cpu_count cpu_count
  if cpu = 0 then .error .zeroDivision
  else
    match chunks_loop file (file.length / cpu) (file.length + 1) 0 with
    | some start_end => .ok (cpu, start_end)
    | none => .error .nonTermination

/-- Keys are the raw bytes of the location field. -/
abbrev Key := List Nat

/-- The per-key running statistic: the source stores the list
[min, max, sum, count]. -/
structure Stat where
  min : ℚ
  max : ℚ
  sum : ℚ
  count : ℕ
deriving DecidableEq

/-- A result mapping in source (insertion) order, modelling a Python dict
from location to [min, max, sum, count]. -/
abbrev Mapping := List (Key × Stat)

/-- Dict lookup. -/
def mlookup : Mapping → Key → Option Stat
  | [], _ => none
  | (k, st) :: rest, key => if k = key then some st else mlookup rest key

/-- Dict update of an existing key, keeping its position. -/
def mupdate : Mapping → Key → Stat → Mapping
  | [], _, _ => []
  | (k, st) :: rest, key, st2 =>
    if k = key then (k, st2) :: rest else (k, st) :: mupdate rest key st2

/-- The fold of one observed value into one RunningStat, lines 82 to 87 of
the source: if measurement < min then min is replaced, elif measurement >
max then max is replaced; sum and count always accumulate. -/
def fold_stat (st : Stat) (v : ℚ) : Stat :=
  let st2 := if v < st.min then { st with min := v }
             else if st.max < v then { st with max := v } else st
  { st2 with sum := st2.sum + v, count := st2.count + 1 }

/-- The per-record branch of _process_file_chunk: a new key is inserted with
[measurement, measurement, measurement, 1], an existing key is folded. -/
def mfold (m : Mapping) (key : Key) (v : ℚ) : Mapping :=
  match mlookup m key with
  | none => m ++ [(key, { min := v, max := v, sum := v, count := 1 })]
  | some st => mupdate m key (fold_stat st v)

/-- The pairwise combine step of the merge loop in process_file, lines 124
to 130: if the incoming min is smaller it replaces the accumulated min,
elif the incoming max is larger it replaces the accumulated max; sums and
counts always add.  (Note the elif: when the min branch fires the max
branch is skipped, exactly as in the source.) -/
def merge_stat (acc incoming : Stat) : Stat :=
  let acc2 := if incoming.min < acc.min then { acc with min := incoming.min }
              else if acc.max < incoming.max then { acc with max := incoming.max } else acc
  { acc2 with sum := acc2.sum + incoming.sum, count := acc2.count + incoming.count }

/-- The per-key branch of the merge loop: an unseen key is inserted
unchanged, a seen key is combined with merge_stat. -/
def mmerge_one (m : Mapping) (key : Key) (st : Stat) : Mapping :=
  match mlookup m key with
  | none => m ++ [(key, st)]
  | some acc => mupdate m key (merge_stat acc st)

/-- Merging one chunk result into the accumulated result, iterating the
chunk mapping in its own order. -/
def mmerge (acc chunk : Mapping) : Mapping :=
  chunk.foldl (fun a kv => mmerge_one a kv.1 kv.2) acc

/-- The whole merge loop of process_file over the list of chunk results,
starting from the empty dict. -/
def merge_all (ms : List Mapping) : Mapping := ms.foldl mmerge []

/-- The semicolon delimiter byte. -/
def SEMI : Nat := 59

/-- Python str.split on the semicolon delimiter: an empty string yields one
empty field, every delimiter starts a new field. -/
def split_semi : List Nat → List (List Nat)
  | [] => [[]]
  | b :: rest =>
    let r := split_semi rest
    if b = SEMI then [] :: r
    else
      match r with
      | [] => [[b]]
      | h :: t => (b :: h) :: t

/-- Decimal digit test on a byte. -/
def is_digit (b : Nat) : Bool := 48 ≤ b && b ≤ 57

/-- Value of a digit string read most significant first. -/
def digits_val (l : List Nat) : ℚ := l.foldl (fun acc b => 10 * acc + ((b : ℚ) - 48)) 0

/-- Modelled: Python float() restricted to plain signed decimal notation
(optional sign, digits, optional single point), the number format of the
input files.  Returns none where float() raises ValueError. -/
def parse_float_unsigned (s : List Nat) : Option ℚ :=
  let intPart := s.takeWhile is_digit
  let rest := s.dropWhile is_digit
  match rest with
  | [] => if intPart.isEmpty then none else some (digits_val intPart)
  | p :: frac =>
    if p = 46 && frac.all is_digit && !(intPart.isEmpty && frac.isEmpty) then
      some (digits_val intPart + digits_val frac / ((10 : ℚ) ^ frac.length))
    else none

/-- Signed variant: Python float() accepts one leading + or - (bytes 43
and 45). -/
def parse_float (s : List Nat) : Option ℚ :=
  match s with
  | 45 :: rest => (parse_float_unsigned rest).map (fun q => -q)
  | 43 :: rest => parse_float_unsigned rest
  | _ => parse_float_unsigned s

/-- Failure modes of _process_file_chunk's record parsing.  The source does
not catch these: data[1] on a split with fewer than two fields raises
IndexError, float() on a non-numeric field raises ValueError.  Neither
exception carries the byte offset of the line. -/
inductive RunError where
  | indexError (line : List Nat)
  | valueError (field : List Nat)
deriving DecidableEq

/-- Lines 70 to 71 of the source: strip every newline from the line, split
on the semicolon, take data[0] as the key and float(data[1]) as the value.
Fields beyond the second are silently ignored. -/
def parse_line (line : List Nat) : Except RunError (Key × ℚ) :=
  match split_semi (line.filter (fun b => b ≠ NL)) with
  | k :: v :: _ =>
    match parse_float v with
    | some q => .ok (k, q)
    | none => .error (.valueError v)
  | _ => .error (.indexError line)

/-- The for-line loop of _process_file_chunk, with explicit fuel: read the
line at the current offset, advance the offset by its length, stop (without
folding the line) as soon as the offset passes chunk_end, otherwise parse
and fold and continue.  Fuel file.length + 1 is proved sufficient below. -/
def chunk_loop (file : List Nat) (chunk_end : Nat) : Nat → Nat → Mapping → Except RunError Mapping
  | 0, _, result => .ok result
  | fuel + 1, pos, result =>
    if pos < file.length then
      let nl := next_line file pos
      if nl ≤ chunk_end then
        match parse_line ((file.drop pos).take (nl - pos)) with
        | .error e => .error e
        | .ok kv => chunk_loop file chunk_end fuel nl (mfold result kv.1 kv.2)
      else .ok result
    else .ok result

/-- Model of _process_file_chunk: seek to chunk_start and run the line loop
with the empty dict.  The source tracks the consumed offset in the variable
chunk_start itself; the model threads it as pos. -/
def _process_file_chunk (file : List Nat) (chunk_start chunk_end : Nat) :
    Except RunError Mapping :=
  chunk_loop file chunk_end (file.length + 1) chunk_start []

/-- Lexicographic comparison of keys as Python compares strings (byte keys,
so code-point order coincides with byte order). -/
def lex_le : List Nat → List Nat → Bool
  | [], _ => true
  | _ :: _, [] => false
  | a :: as, b :: bs => if a < b then true else if b < a then false else lex_le as bs

/-- Strict lexicographic order on keys. -/
def lex_lt : List Nat → List Nat → Bool
  | [], [] => false
  | [], _ :: _ => true
  | _ :: _, [] => false
  | a :: as, b :: bs => if a < b then true else if b < a then false else lex_lt as bs

/-- Order on mapping entries used by sorted(result.items()): entries are
compared by key (keys of a dict are distinct, so the tuple comparison never
reaches the stat lists). -/
def entry_le (a b : Key × Stat) : Prop := lex_le a.1 b.1 = true

instance : DecidableRel entry_le := fun a b => decEq (lex_le a.1 b.1) true

/-- Floor of a rational, computably. -/
def rfloor (q : ℚ) : ℤ := Int.fdiv q.num q.den

/-- Rounding to the nearest integer with ties to even, the rule Python's
format applies; the model rounds the exact rational where CPython rounds
the binary double. -/
def round_half_even (q : ℚ) : ℤ :=
  let f := rfloor q
  let frac := q - f
  if frac < 1 / 2 then f
  else if 1 / 2 < frac then f + 1
  else if f % 2 = 0 then f else f + 1

/-- Decimal digit characters of a natural number, most significant first,
with explicit fuel (one more than the number is always enough). -/
def nat_chars_fuel : Nat → Nat → List Char
  | 0, _ => []
  | fuel + 1, n =>
    if n < 10 then [Char.ofNat (48 + n)]
    else nat_chars_fuel fuel (n / 10) ++ [Char.ofNat (48 + n % 10)]

/-- Decimal digit characters of a natural number. -/
def nat_chars (n : Nat) : List Char := nat_chars_fuel (n + 1) n

/-- Modelled: the format specifier :.1f, one decimal digit, as the list of
characters printed. -/
def fmt1 (q : ℚ) : List Char :=
  let n := round_half_even (10 * q)
  (if n < 0 then ['-'] else []) ++ nat_chars (n.natAbs / 10) ++ ['.'] ++ nat_chars (n.natAbs % 10)

/-- Render a key as the printed characters. -/
def key_string (k : Key) : List Char := k.map Char.ofNat

/-- One printed entry, location=min/mean/max, each value through :.1f; the
mean is sum / count guarded by the source's count != 0 test. -/
def entry_string (kv : Key × Stat) : List Char :=
  key_string kv.1 ++ ['='] ++ fmt1 kv.2.min ++ ['/'] ++
    fmt1 (if kv.2.count ≠ 0 then kv.2.sum / (kv.2.count : ℚ) else 0) ++ ['/'] ++ fmt1 kv.2.max

/-- Model of display_measurements as the exact character stream printed
(without the final newline of the last print call).  The source's separator
condition location != sorted_result[-1] compares a string with a
(location, measurements) tuple and is therefore always true, so every
entry, the last included, is followed by the comma-space separator; the
final print then emits two backspace characters before the closing brace.
Python's sorted is modelled by insertion sort on the key order, which
agrees with it on the distinct keys of a dict. -/
def display_measurements (result : Mapping) : List Char :=
  let sorted_result := List.insertionSort entry_le result
  ['\x7b'] ++ (sorted_result.map (fun kv => entry_string kv ++ [',', ' '])).flatten ++
    ['\x08', '\x08', '\x7d']

/-- Collecting the pool's starmap results: the first worker exception
propagates, otherwise all chunk mappings are returned. -/
def collect_results : List (Except RunError Mapping) → Except RunError (List Mapping)
  | [] => .ok []
  | .error e :: _ => .error e
  | .ok m :: rest => (collect_results rest).map (fun l => m :: l)

/-- Model of process_file: run every chunk, and only when all succeed merge
the partial mappings and render the summary (the elapsed-time line is a
collaborator concern and is not modelled). -/
def process_file (file : List Nat) (file_chunks : List (Nat × Nat)) :
    Except RunError (List Char) :=
  match collect_results (file_chunks.map (fun r => _process_file_chunk file r.1 r.2)) with
  | .error e => .error e
  | .ok chunk_results => .ok (display_measurements (merge_all chunk_results))

/-- A position the planner may hand to the next loop iteration: a true line
boundary or the end of the file. -/
def boundary (file : List Nat) (p : Nat) : Prop :=
  is_line_end file p = true ∨ p = file.length

/-- Contiguity of a range list: starts at s, every range is nonempty, each
range begins where the previous one ended, and the last one ends at L. -/
def is_chain (s L : Nat) : List (Nat × Nat) → Bool
  | [] => s == L
  | r :: rest => r.1 == s && decide (s < r.2) && is_chain r.2 L rest

/-- All lines of the file from a given offset, each including its newline
terminator when it has one; the decomposition Python's line iteration
produces after seeking to the offset.  Fuelled like the loops above. -/
def read_lines_fuel (file : List Nat) : Nat → Nat → List (List Nat)
  | 0, _ => []
  | fuel + 1, pos =>
    if pos < file.length then
      (file.drop pos).take (line_len (file.drop pos)) ::
        read_lines_fuel file fuel (next_line file pos)
    else []

/-- All lines of the file from a given offset. -/
def read_lines (file : List Nat) (pos : Nat) : List (List Nat) :=
  read_lines_fuel file (file.length + 1) pos

/-- The prefix of those lines a chunk consumes: reading stops before the
first line whose end offset passes chunk_end. -/
def lines_upto_fuel (file : List Nat) (chunk_end : Nat) : Nat → Nat → List (List Nat)
  | 0, _ => []
  | fuel + 1, pos =>
    if pos < file.length then
      if next_line file pos ≤ chunk_end then
        (file.drop pos).take (line_len (file.drop pos)) ::
          lines_upto_fuel file chunk_end fuel (next_line file pos)
      else []
    else []

/-- The lines the chunk from chunk_start to chunk_end consumes. -/
def lines_upto (file : List Nat) (chunk_start chunk_end : Nat) : List (List Nat) :=
  lines_upto_fuel file chunk_end (file.length + 1) chunk_start

/-- Sequential parse-and-fold over an explicit list of lines, stopping at
the first malformed line. -/
def fold_parse_from (result : Mapping) : List (List Nat) → Except RunError Mapping
  | [] => .ok result
  | l :: ls =>
    match parse_line l with
    | .error e => .error e
    | .ok kv => fold_parse_from (mfold result kv.1 kv.2) ls

/-- Parse-and-fold of a list of lines into a fresh mapping. -/
def fold_parse (ls : List (List Nat)) : Except RunError Mapping := fold_parse_from [] ls

/-- Decidable equality for Except results. -/
def except_eq_dec {e a : Type} [DecidableEq e] [DecidableEq a] : DecidableEq (Except e a)
  | .error x, .error y =>
    if h : x = y then .isTrue (congrArg Except.error h)
    else .isFalse (fun hc => h (Except.error.inj hc))
  | .error _, .ok _ => .isFalse (fun hc => Except.noConfusion hc)
  | .ok _, .error _ => .isFalse (fun hc => Except.noConfusion hc)
  | .ok x, .ok y =>
    if h : x = y then .isTrue (congrArg Except.ok h)
    else .isFalse (fun hc => h (Except.ok.inj hc))

instance {e a : Type} [DecidableEq e] [DecidableEq a] : DecidableEq (Except e a) :=
  except_eq_dec

/-- Spec-side rendering of entries separated by a comma and a space, the
format the specification describes. -/
def sep_concat : List (List Char) → List Char
  | [] => []
  | [x] => x
  | x :: y :: t => x ++ [',', ' '] ++ sep_concat (y :: t)

theorem line_len_pos (b : Nat) (rest : List Nat) : 1 ≤ line_len (b :: rest) := by
  by_cases h : b = NL
  · simp [line_len, h]
  · simp [line_len, h]

theorem line_len_le_length (l : List Nat) : line_len l ≤ l.length := by
  induction l with
  | nil => simp [line_len]
  | cons b rest ih =>
    by_cases h : b = NL
    · simp [line_len, h]
    · simp only [line_len, if_neg h, List.length_cons]
      omega

theorem drop_getD (l : List Nat) (i j d : Nat) : (l.drop i).getD j d = l.getD (i + j) d := by
  simp [List.getD_eq_getElem?_getD, List.getElem?_drop]

theorem line_len_no_nl (l : List Nat) : ∀ j, j + 1 < line_len l → l.getD j 0 ≠ NL := by
  induction l with
  | nil => intro j h; simp [line_len] at h
  | cons b rest ih =>
    intro j h
    by_cases hb : b = NL
    · simp [line_len, hb] at h
    · cases j with
      | zero => simpa [List.getD] using hb
      | succ j =>
        simp only [line_len, if_neg hb] at h
        have := ih j (by omega)
        simpa [List.getD] using this

theorem line_len_last (l : List Nat) :
    line_len l = l.length ∨ (1 ≤ line_len l ∧ l.getD (line_len l - 1) 0 = NL) := by
  induction l with
  | nil => left; simp [line_len]
  | cons b rest ih =>
    by_cases hb : b = NL
    · right; simp [line_len, hb, List.getD]
    · rcases ih with h | ⟨h1, h2⟩
      · left; simp only [line_len, if_neg hb, h, List.length_cons]; omega
      · right
        refine ⟨by simp [line_len, hb], ?_⟩
        have harith : 1 + line_len rest - 1 = (line_len rest - 1) + 1 := by omega
        simp only [line_len, if_neg hb, harith, List.getD]
        simpa [List.getD] using h2

theorem next_line_gt (file : List Nat) (pos : Nat) (h : pos < file.length) :
    pos < next_line file pos := by
  have hd : file.drop pos ≠ [] := by
    intro hc
    have := congrArg List.length hc
    simp at this
    omega
  rcases hne : file.drop pos with _ | ⟨b, rest⟩
  · exact absurd hne hd
  · have := line_len_pos b rest
    simp only [next_line, hne]
    omega

theorem next_line_le (file : List Nat) (pos : Nat) (h : pos ≤ file.length) :
    next_line file pos ≤ file.length := by
  have h1 := line_len_le_length (file.drop pos)
  have h2 : (file.drop pos).length = file.length - pos := by simp
  simp only [next_line]
  omega

theorem next_line_aligned (file : List Nat) (pos : Nat) (h : pos ≤ file.length) :
    is_line_end file (next_line file pos) = true ∨ next_line file pos = file.length := by
  rcases line_len_last (file.drop pos) with hl | ⟨h1, h2⟩
  · right
    have h2 : (file.drop pos).length = file.length - pos := by simp
    simp only [next_line]
    omega
  · left
    have hg : file.getD (pos + (line_len (file.drop pos) - 1)) 0 = NL := by
      rw [← drop_getD]; exact h2
    have hpos : pos + line_len (file.drop pos) - 1 = pos + (line_len (file.drop pos) - 1) := by
      omega
    simp only [is_line_end, next_line, hpos, hg, beq_self_eq_true, ite_self]

theorem aligned_lt_next (file : List Nat) (s e : Nat) (hal : is_line_end file e = true)
    (hse : s ≤ e) (hlt : e < next_line file s) : e = s := by
  by_contra hne
  have hgt : s + 1 ≤ e := by omega
  have he0 : ¬ (e = 0) := by omega
  simp only [is_line_end, if_neg he0, beq_iff_eq] at hal
  have hj : (e - 1 - s) + 1 < line_len (file.drop s) := by
    simp only [next_line] at hlt; omega
  have := line_len_no_nl (file.drop s) (e - 1 - s) hj
  rw [drop_getD] at this
  have harith : s + (e - 1 - s) = e - 1 := by omega
  rw [harith] at this
  exact this hal

theorem align_end_le (file : List Nat) (p : Nat) : align_end file p ≤ p := by
  induction p with
  | zero => simp [align_end]
  | succ p ih =>
    by_cases h : is_line_end file (p + 1) = true
    · simp [align_end, h]
    · simp only [align_end, if_neg h]
      omega

theorem align_end_line_end (file : List Nat) (p : Nat) :
    is_line_end file (align_end file p) = true := by
  induction p with
  | zero => simp [align_end, is_line_end]
  | succ p ih =>
    by_cases h : is_line_end file (p + 1) = true
    · simp only [align_end, if_pos h]
      exact h
    · simp only [align_end, if_neg h]
      exact ih

theorem align_end_ge (file : List Nat) (p q : Nat) (hq : is_line_end file q = true)
    (hle : q ≤ p) : q ≤ align_end file p := by
  induction p with
  | zero => simpa [align_end] using hle
  | succ p ih =>
    by_cases h : is_line_end file (p + 1) = true
    · simpa [align_end, h] using hle
    · have hqp : q ≤ p := by
        rcases Nat.lt_or_ge q (p + 1) with hlt | hge
        · omega
        · exfalso; have : q = p + 1 := by omega
          rw [this] at hq; exact h hq
      simpa [align_end, h] using ih hqp

theorem chunk_step_progress (file : List Nat) (cs s : Nat)
    (hs : is_line_end file s = true) (hlt : s < file.length) :
    s < chunk_step file cs s ∧ chunk_step file cs s ≤ file.length ∧
      boundary file (chunk_step file cs s) := by
  have hmin : s ≤ min file.length (s + cs) := by omega
  have hge := align_end_ge file (min file.length (s + cs)) s hs hmin
  have hle := align_end_le file (min file.length (s + cs))
  have hline := align_end_line_end file (min file.length (s + cs))
  by_cases hcol : s = align_end file (min file.length (s + cs))
  · have h1 := next_line_gt file (align_end file (min file.length (s + cs))) (by omega)
    have h2 := next_line_le file (align_end file (min file.length (s + cs))) (by omega)
    have h3 := next_line_aligned file (align_end file (min file.length (s + cs))) (by omega)
    refine ⟨?_, ?_, ?_⟩
    · simp only [chunk_step, if_pos hcol]; omega
    · simp only [chunk_step, if_pos hcol]; exact h2
    · simp only [chunk_step, if_pos hcol]
      rcases h3 with h | h
      · exact Or.inl h
      · exact Or.inr h
  · refine ⟨?_, ?_, ?_⟩
    · simp only [chunk_step, if_neg hcol]; omega
    · simp only [chunk_step, if_neg hcol]; omega
    · simp only [chunk_step, if_neg hcol]; exact Or.inl hline

theorem is_chain_mem_lt (s L : Nat) (rs : List (Nat × Nat)) (h : is_chain s L rs = true) :
    ∀ r ∈ rs, r.1 < r.2 := by
  induction rs generalizing s with
  | nil => intro r hr; simp at hr
  | cons a rest ih =>
    simp only [is_chain, Bool.and_eq_true, beq_iff_eq, decide_eq_true_eq] at h
    intro r hr
    rcases List.mem_cons.mp hr with rfl | hr
    · omega
    · exact ih a.2 h.2 r hr

theorem is_chain_mem_bounds (s L : Nat) (rs : List (Nat × Nat)) (h : is_chain s L rs = true) :
    ∀ r ∈ rs, s ≤ r.1 ∧ r.2 ≤ L := by
  induction rs generalizing s with
  | nil => intro r hr; simp at hr
  | cons a rest ih =>
    simp only [is_chain, Bool.and_eq_true, beq_iff_eq, decide_eq_true_eq] at h
    have hend : a.2 ≤ L := by
      rcases rest with _ | ⟨b, rest⟩
      · simp only [is_chain, beq_iff_eq] at *; omega
      · have := ih a.2 h.2 b (by simp)
        rcases h.2 with h2
        simp only [is_chain, Bool.and_eq_true, beq_iff_eq, decide_eq_true_eq] at h2
        omega
    intro r hr
    rcases List.mem_cons.mp hr with rfl | hr
    · exact ⟨by omega, hend⟩
    · have := ih a.2 h.2 r hr
      omega

theorem is_chain_pairwise (s L : Nat) (rs : List (Nat × Nat)) (h : is_chain s L rs = true) :
    rs.Pairwise (fun r r2 => r.2 ≤ r2.1) := by
  induction rs generalizing s with
  | nil => exact List.Pairwise.nil
  | cons a rest ih =>
    simp only [is_chain, Bool.and_eq_true, beq_iff_eq, decide_eq_true_eq] at h
    refine List.Pairwise.cons ?_ (ih a.2 h.2)
    intro r hr
    exact (is_chain_mem_bounds a.2 L rest h.2 r hr).1

theorem is_chain_coverage (s L : Nat) (rs : List (Nat × Nat)) (h : is_chain s L rs = true) :
    ∀ i, s ≤ i → i < L → ∃ r ∈ rs, r.1 ≤ i ∧ i < r.2 := by
  induction rs generalizing s with
  | nil =>
    simp only [is_chain, beq_iff_eq] at h
    intro i h1 h2; omega
  | cons a rest ih =>
    simp only [is_chain, Bool.and_eq_true, beq_iff_eq, decide_eq_true_eq] at h
    intro i h1 h2
    rcases Nat.lt_or_ge i a.2 with hlt | hge
    · exact ⟨a, by simp, by omega, hlt⟩
    · rcases ih a.2 h.2 i hge h2 with ⟨r, hr, hri⟩
      exact ⟨r, List.mem_cons_of_mem a hr, hri⟩

theorem chunks_loop_spec (file : List Nat) (cs : Nat) :
    ∀ fuel s, boundary file s → s ≤ file.length → file.length + 1 ≤ fuel + s →
      ∃ rs, chunks_loop file cs fuel s = some rs ∧ is_chain s file.length rs = true ∧
        ∀ r ∈ rs, is_line_end file r.1 = true ∧ boundary file r.2 := by
  intro fuel
  induction fuel with
  | zero => intro s _ hle hfuel; omega
  | succ fuel ih =>
    intro s hb hle hfuel
    by_cases hlt : s < file.length
    · have hs : is_line_end file s = true := by
        rcases hb with h | h
        · exact h
        · omega
      obtain ⟨h1, h2, h3⟩ := chunk_step_progress file cs s hs hlt
      obtain ⟨rs, heq, hchain, hmem⟩ :=
        ih (chunk_step file cs s) h3 h2 (by omega)
      refine ⟨(s, chunk_step file cs s) :: rs, ?_, ?_, ?_⟩
      · simp only [chunks_loop, if_pos hlt, heq]
        rfl
      · simp only [is_chain, Bool.and_eq_true, beq_self_eq_true, decide_eq_true_eq]
        exact ⟨⟨trivial, h1⟩, hchain⟩
      · intro r hr
        rcases List.mem_cons.mp hr with rfl | hr
        · exact ⟨hs, h3⟩
        · exact hmem r hr
    · have hs : s = file.length := by omega
      refine ⟨[], ?_, ?_, ?_⟩
      · simp only [chunks_loop, if_neg hlt]
      · simp [is_chain, hs]
      · intro r hr; simp at hr

theorem get_file_chunks_spec (file : List Nat) (cpu_count os_cpu_count : Nat)
    (hcpu : 0 < min os_cpu_count cpu_count) :
    ∃ rs, get_file_chunks file cpu_count os_cpu_count = .ok (min os_cpu_count cpu_count, rs) ∧
      is_chain 0 file.length rs = true ∧
      ∀ r ∈ rs, is_line_end file r.1 = true ∧ boundary file r.2 := by
  obtain ⟨rs, heq, hchain, hmem⟩ :=
    chunks_loop_spec file (file.length / min os_cpu_count cpu_count) (file.length + 1) 0
      (Or.inl (by simp [is_line_end])) (by omega) (by omega)
  refine ⟨rs, ?_, hchain, hmem⟩
  have hne : ¬ (min os_cpu_count cpu_count = 0) := by omega
  simp only [get_file_chunks, if_neg hne, heq]

theorem next_line_sub (file : List Nat) (pos : Nat) :
    next_line file pos - pos = line_len (file.drop pos) := by
  simp [next_line]

theorem read_lines_fuel_irrel (file : List Nat) :
    ∀ f1 f2 pos, file.length ≤ f1 + pos → file.length ≤ f2 + pos →
      read_lines_fuel file f1 pos = read_lines_fuel file f2 pos := by
  intro f1
  induction f1 with
  | zero =>
    intro f2 pos h1 h2
    cases f2 with
    | zero => rfl
    | succ f2 =>
      have : ¬ pos < file.length := by omega
      simp [read_lines_fuel, this]
  | succ f1 ih =>
    intro f2 pos h1 h2
    cases f2 with
    | zero =>
      have : ¬ pos < file.length := by omega
      simp [read_lines_fuel, this]
    | succ f2 =>
      by_cases h : pos < file.length
      · have hnl := next_line_gt file pos h
        simp only [read_lines_fuel, if_pos h]
        congr 1
        exact ih f2 (next_line file pos) (by omega) (by omega)
      · simp [read_lines_fuel, h]

theorem read_lines_unfold (file : List Nat) (pos : Nat) :
    read_lines file pos =
      if pos < file.length then
        (file.drop pos).take (line_len (file.drop pos)) :: read_lines file (next_line file pos)
      else [] := by
  by_cases h : pos < file.length
  · have hnl := next_line_gt file pos h
    simp only [read_lines, read_lines_fuel, if_pos h]
    congr 1
    exact read_lines_fuel_irrel file file.length (file.length + 1) (next_line file pos)
      (by omega) (by omega)
  · simp [read_lines, read_lines_fuel, h]

theorem read_lines_nil (file : List Nat) (pos : Nat) (h : file.length ≤ pos) :
    read_lines file pos = [] := by
  rw [read_lines_unfold]
  simp [Nat.not_lt.mpr h]

theorem lines_upto_fuel_irrel (file : List Nat) (e : Nat) :
    ∀ f1 f2 pos, file.length ≤ f1 + pos → file.length ≤ f2 + pos →
      lines_upto_fuel file e f1 pos = lines_upto_fuel file e f2 pos := by
  intro f1
  induction f1 with
  | zero =>
    intro f2 pos h1 h2
    cases f2 with
    | zero => rfl
    | succ f2 =>
      have : ¬ pos < file.length := by omega
      simp [lines_upto_fuel, this]
  | succ f1 ih =>
    intro f2 pos h1 h2
    cases f2 with
    | zero =>
      have : ¬ pos < file.length := by omega
      simp [lines_upto_fuel, this]
    | succ f2 =>
      by_cases h : pos < file.length
      · have hnl := next_line_gt file pos h
        by_cases he : next_line file pos ≤ e
        · simp only [lines_upto_fuel, if_pos h, if_pos he]
          congr 1
          exact ih f2 (next_line file pos) (by omega) (by omega)
        · simp [lines_upto_fuel, h, he]
      · simp [lines_upto_fuel, h]

theorem lines_upto_unfold (file : List Nat) (pos e : Nat) :
    lines_upto file pos e =
      if pos < file.length then
        if next_line file pos ≤ e then
          (file.drop pos).take (line_len (file.drop pos)) ::
            lines_upto file (next_line file pos) e
        else []
      else [] := by
  by_cases h : pos < file.length
  · by_cases he : next_line file pos ≤ e
    · have hnl := next_line_gt file pos h
      simp only [lines_upto, lines_upto_fuel, if_pos h, if_pos he]
      congr 1
      exact lines_upto_fuel_irrel file e file.length (file.length + 1) (next_line file pos)
        (by omega) (by omega)
    · simp [lines_upto, lines_upto_fuel, h, he]
  · simp [lines_upto, lines_upto_fuel, h]

theorem chunk_loop_irrel (file : List Nat) (e : Nat) :
    ∀ f1 f2 pos r, file.length ≤ f1 + pos → file.length ≤ f2 + pos →
      chunk_loop file e f1 pos r = chunk_loop file e f2 pos r := by
  intro f1
  induction f1 with
  | zero =>
    intro f2 pos r h1 h2
    cases f2 with
    | zero => rfl
    | succ f2 =>
      have : ¬ pos < file.length := by omega
      simp [chunk_loop, this]
  | succ f1 ih =>
    intro f2 pos r h1 h2
    cases f2 with
    | zero =>
      have : ¬ pos < file.length := by omega
      simp [chunk_loop, this]
    | succ f2 =>
      by_cases h : pos < file.length
      · have hnl := next_line_gt file pos h
        by_cases he : next_line file pos ≤ e
        · simp only [chunk_loop, if_pos h, if_pos he]
          rcases hp : parse_line ((file.drop pos).take (next_line file pos - pos)) with er | kv
          · rfl
          · exact ih f2 (next_line file pos) (mfold r kv.1 kv.2) (by omega) (by omega)
        · simp [chunk_loop, h, he]
      · simp [chunk_loop, h]

theorem chunk_loop_eq_fold (file : List Nat) (e : Nat) :
    ∀ fuel pos r, file.length ≤ fuel + pos →
      chunk_loop file e fuel pos r = fold_parse_from r (lines_upto_fuel file e fuel pos) := by
  intro fuel
  induction fuel with
  | zero =>
    intro pos r h
    simp [chunk_loop, lines_upto_fuel, fold_parse_from]
  | succ fuel ih =>
    intro pos r h
    by_cases hlt : pos < file.length
    · have hnl := next_line_gt file pos hlt
      by_cases he : next_line file pos ≤ e
      · simp only [chunk_loop, lines_upto_fuel, if_pos hlt, if_pos he, next_line_sub,
          fold_parse_from]
        rcases hp : parse_line ((file.drop pos).take (line_len (file.drop pos))) with er | kv
        · rfl
        · exact ih (next_line file pos) (mfold r kv.1 kv.2) (by omega)
      · simp [chunk_loop, lines_upto_fuel, hlt, he, fold_parse_from]
    · simp [chunk_loop, lines_upto_fuel, hlt, fold_parse_from]

/-- The chunk aggregator consumes exactly the lines whose end offset stays
within the chunk, parsed and folded in order; a line whose end passes
chunk_end is read but neither parsed nor folded. -/
theorem process_chunk_eq_fold (file : List Nat) (chunk_start chunk_end : Nat) :
    _process_file_chunk file chunk_start chunk_end =
      fold_parse (lines_upto file chunk_start chunk_end) := by
  simp only [_process_file_chunk, fold_parse, lines_upto]
  exact chunk_loop_eq_fold file chunk_end (file.length + 1) chunk_start [] (by omega)

theorem lines_upto_append (file : List Nat) :
    ∀ n s e, file.length - s ≤ n → boundary file e → s ≤ e →
      lines_upto file s e ++ read_lines file e = read_lines file s := by
  intro n
  induction n with
  | zero =>
    intro s e hn hb hse
    have hs : file.length ≤ s := by omega
    rw [lines_upto_unfold, read_lines_nil file s hs, read_lines_nil file e (by omega)]
    simp [Nat.not_lt.mpr hs]
  | succ n ih =>
    intro s e hn hb hse
    by_cases hlt : s < file.length
    · by_cases he : next_line file s ≤ e
      · have hnl := next_line_gt file s hlt
        rw [lines_upto_unfold]
        simp only [if_pos hlt, if_pos he, List.cons_append]
        rw [ih (next_line file s) e (by omega) hb he]
        rw [read_lines_unfold file s]
        simp [if_pos hlt]
      · have hnl := next_line_gt file s hlt
        have hel : is_line_end file e = true := by
          rcases hb with h | h
          · exact h
          · exfalso
            have := next_line_le file s (by omega)
            omega
        have hes : e = s := aligned_lt_next file s e hel hse (by omega)
        subst hes
        rw [lines_upto_unfold]
        simp [if_pos hlt, he]
    · have hs : file.length ≤ s := by omega
      rw [lines_upto_unfold, read_lines_nil file s hs, read_lines_nil file e (by omega)]
      simp [Nat.not_lt.mpr hs]

/-- Joining the per-chunk line lists of a contiguous, boundary-aligned range
chain recovers the full line decomposition of the file from the chain's
start: every line of the file is consumed by exactly one chunk, in order. -/
theorem chain_lines_join (file : List Nat) :
    ∀ rs s, is_chain s file.length rs = true → (∀ r ∈ rs, boundary file r.2) →
      (rs.map fun r => lines_upto file r.1 r.2).flatten = read_lines file s := by
  intro rs
  induction rs with
  | nil =>
    intro s hchain _
    simp only [is_chain, beq_iff_eq] at hchain
    simp [read_lines_nil file s (by omega)]
  | cons a rest ih =>
    intro s hchain hb
    simp only [is_chain, Bool.and_eq_true, beq_iff_eq, decide_eq_true_eq] at hchain
    obtain ⟨⟨ha1, ha2⟩, hrest⟩ := hchain
    simp only [List.map_cons, List.flatten_cons]
    rw [ih a.2 hrest (fun r hr => hb r (List.mem_cons_of_mem a hr))]
    rw [ha1]
    exact lines_upto_append file file.length s a.2 (by omega)
      (hb a (List.mem_cons_self a rest)) (by omega)

theorem lex_le_total (a b : List Nat) : lex_le a b = true ∨ lex_le b a = true := by
  induction a generalizing b with
  | nil => left; rfl
  | cons x xs ih =>
    cases b with
    | nil => right; rfl
    | cons y ys =>
      rcases Nat.lt_trichotomy x y with h | h | h
      · left; simp [lex_le, h]
      · subst h
        rcases ih ys with h2 | h2
        · left; simp [lex_le, h2]
        · right; simp [lex_le, h2]
      · right; simp [lex_le, h]

theorem lex_le_trans (a b c : List Nat) (hab : lex_le a b = true) (hbc : lex_le b c = true) :
    lex_le a c = true := by
  induction a generalizing b c with
  | nil => rfl
  | cons x xs ih =>
    cases b with
    | nil => simp [lex_le] at hab
    | cons y ys =>
      cases c with
      | nil => simp [lex_le] at hbc
      | cons z zs =>
        by_cases hxy : x < y
        · by_cases hyz : y < z
          · have hxz : x < z := by omega
            simp [lex_le, hxz]
          · by_cases hzy : z < y
            · simp [lex_le, hyz, hzy] at hbc
            · have hh : x < z := by omega
              simp [lex_le, hh]
        · by_cases hyx : y < x
          · simp [lex_le, hxy, hyx] at hab
          · have hh : x = y := by omega
            subst hh
            simp only [lex_le, if_neg hxy, if_neg hyx] at hab
            by_cases hyz : x < z
            · simp [lex_le, hyz]
            · by_cases hzy : z < x
              · simp [lex_le, hyz, hzy] at hbc
              · have hh2 : x = z := by omega
                subst hh2
                simp only [lex_le, if_neg hyz, if_neg hzy] at hbc ⊢
                exact ih ys zs hab hbc

theorem lex_le_ne_lt (a b : List Nat) (hle : lex_le a b = true) (hne : a ≠ b) :
    lex_lt a b = true := by
  induction a generalizing b with
  | nil =>
    cases b with
    | nil => exact absurd rfl hne
    | cons y ys => rfl
  | cons x xs ih =>
    cases b with
    | nil => simp [lex_le] at hle
    | cons y ys =>
      by_cases hxy : x < y
      · simp [lex_lt, hxy]
      · by_cases hyx : y < x
        · simp [lex_le, hxy, hyx] at hle
        · have hh : x = y := by omega
          subst hh
          simp only [lex_le, if_neg hxy, if_neg hyx] at hle
          simp only [lex_lt, if_neg hxy, if_neg hyx]
          refine ih ys hle ?_
          intro hc
          exact hne (by rw [hc])

theorem flatten_sep {A : Type} (f : A → List Char) (es : List A) (hne : es ≠ []) :
    (es.map fun x => f x ++ [',', ' ']).flatten = sep_concat (es.map f) ++ [',', ' '] := by
  induction es with
  | nil => exact absurd rfl hne
  | cons x t ih =>
    cases t with
    | nil => simp [sep_concat]
    | cons y t2 =>
      have h := ih (by simp)
      simp only [List.map_cons, List.flatten_cons] at h ⊢
      rw [h]
      simp [sep_concat, List.append_assoc]

theorem fold_parse_ok_all (ls : List (List Nat)) :
    ∀ r m, fold_parse_from r ls = .ok m → ∀ l ∈ ls, ∃ kv, parse_line l = .ok kv := by
  induction ls with
  | nil => intro r m _ l hl; simp at hl
  | cons x t ih =>
    intro r m h l hl
    rcases hp : parse_line x with er | kv
    · simp only [fold_parse_from, hp] at h
      exact Except.noConfusion h
    · rcases List.mem_cons.mp hl with rfl | hl2
      · exact ⟨kv, hp⟩
      · simp only [fold_parse_from, hp] at h
        exact ih (mfold r kv.1 kv.2) m h l hl2

theorem collect_results_ok (xs : List (Except RunError Mapping)) :
    ∀ res, collect_results xs = .ok res → ∀ x ∈ xs, ∃ m, x = .ok m := by
  induction xs with
  | nil => intro res _ x hx; simp at hx
  | cons a t ih =>
    intro res h x hx
    rcases ha : a with er | m
    · subst ha
      rw [collect_results.eq_2] at h
      exact Except.noConfusion h
    · rcases List.mem_cons.mp hx with rfl | hx2
      · exact ⟨m, ha⟩
      · rw [ha] at h
        rw [collect_results.eq_3] at h
        rcases hc : collect_results t with er2 | res2
        · rw [hc] at h; simp [Except.map] at h
        · exact ih res2 hc x hx2


/-- C1: the claim states that the merge step of process_file combines two
RunningStats recorded for the same key into min = min(a.min, b.min),
max = max(a.max, b.max), sum = a.sum + b.sum, count = a.count + b.count.
The source's merge skips the max update whenever the min update fires (the
elif on line 127), so for a = (5, 5, 5, 1) and b = (3, 10, 13, 2) the
combined stat keeps max 5 instead of max(5, 10) = 10. -/
theorem merge_step_drops_max_update :
    merge_stat ⟨5, 5, 5, 1⟩ ⟨3, 10, 13, 2⟩ = ⟨3, 5, 18, 3⟩ ∧
    (merge_stat ⟨5, 5, 5, 1⟩ ⟨3, 10, 13, 2⟩).max ≠
      max (Stat.mk 5 5 5 1).max (Stat.mk 3 10 13 2).max := by
  constructor
  · norm_num [merge_stat]
  · norm_num [merge_stat, max_def]

/-- C2: the claim states that the mapping produced by the merge loop of
process_file is the same for every order of the per-chunk mappings.
Folding the mapping with X = (5, 5, 5, 1) and then the mapping with
X = (3, 10, 13, 2) yields max 5 for X, while the opposite order yields
max 10, because the merge skips the max update whenever the min update
fires. -/
theorem merge_order_dependent :
    mlookup (merge_all [[([88], ⟨5, 5, 5, 1⟩)], [([88], ⟨3, 10, 13, 2⟩)]]) [88] ≠
      mlookup (merge_all [[([88], ⟨3, 10, 13, 2⟩)], [([88], ⟨5, 5, 5, 1⟩)]]) [88] := by
  norm_num [merge_all, mmerge, mmerge_one, mlookup, mupdate, merge_stat, Stat.mk.injEq]

/-- C4: the claim states that every RunningStat of the per-chunk mappings
and of the merged mapping satisfies min ≤ sum/count ≤ max.  The two chunk
results computed by the aggregator from the files X;5.0 and X;3.0,X;100.0
are well formed, yet their merge is (3, 5, 108, 3), whose mean 36 exceeds
its max 5, because the merge skips the max update whenever the min update
fires. -/
theorem merged_mean_exceeds_max :
    _process_file_chunk [88, 59, 53, 46, 48, 10] 0 6 = .ok [([88], ⟨5, 5, 5, 1⟩)] ∧
    _process_file_chunk [88, 59, 51, 46, 48, 10, 88, 59, 49, 48, 48, 46, 48, 10] 0 14 =
      .ok [([88], ⟨3, 100, 103, 2⟩)] ∧
    merge_all [[([88], ⟨5, 5, 5, 1⟩)], [([88], ⟨3, 100, 103, 2⟩)]] =
      [([88], ⟨3, 5, 108, 3⟩)] ∧
    ¬ ((Stat.mk 3 5 108 3).sum / ((Stat.mk 3 5 108 3).count : ℚ) ≤ (Stat.mk 3 5 108 3).max) := by
  refine ⟨?_, ?_, ?_, by norm_num⟩
  · rw [process_chunk_eq_fold]
    have h : lines_upto [88, 59, 53, 46, 48, 10] 0 6 = [[88, 59, 53, 46, 48, 10]] := by decide
    rw [h]
    norm_num [fold_parse, fold_parse_from, parse_line, split_semi, parse_float,
      parse_float_unsigned, is_digit, digits_val, mfold, mlookup, NL, SEMI]
  · rw [process_chunk_eq_fold]
    have h : lines_upto [88, 59, 51, 46, 48, 10, 88, 59, 49, 48, 48, 46, 48, 10] 0 14 =
        [[88, 59, 51, 46, 48, 10], [88, 59, 49, 48, 48, 46, 48, 10]] := by decide
    rw [h]
    norm_num [fold_parse, fold_parse_from, parse_line, split_semi, parse_float,
      parse_float_unsigned, is_digit, digits_val, mfold, mlookup, mupdate, fold_stat, NL, SEMI]
  · norm_num [merge_all, mmerge, mmerge_one, mlookup, mupdate, merge_stat]

/-- C5 counterexample: for the file AA;1.0,BB;2.0 and the byte range
(0, 3), the first line is 7 bytes long, so it straddles the range end 3;
the aggregator returns the empty mapping, showing the straddling line is
read but neither parsed nor folded, where the claim says the last line
read is fully consumed even when it straddles range.end. -/
theorem straddling_line_not_folded :
    next_line [65, 65, 59, 49, 46, 48, 10, 66, 66, 59, 50, 46, 48, 10] 0 = 7 ∧
    _process_file_chunk [65, 65, 59, 49, 46, 48, 10, 66, 66, 59, 50, 46, 48, 10] 0 3 =
      .ok [] := by
  exact ⟨by decide, by decide⟩

/-- C5 (amended): the aggregator stops reading once the consumed offset
would exceed chunk_end, and a line is parsed and folded exactly when its
end offset stays within the range: the chunk result is the sequential
parse-and-fold of the lines from chunk_start whose end offsets are at most
chunk_end, and a line straddling chunk_end is dropped, not folded. -/
theorem chunk_boundary_semantics (file : List Nat) (chunk_start chunk_end : Nat) :
    _process_file_chunk file chunk_start chunk_end =
      fold_parse (lines_upto file chunk_start chunk_end) :=
  process_chunk_eq_fold file chunk_start chunk_end

/-- C7 counterexample: on a zero-length file, get_file_chunks does not
fail: it returns the clamped worker count and an empty chunk plan, where
the claim says it fails with InvalidInput. -/
theorem empty_file_returns_empty_plan :
    get_file_chunks ([] : List Nat) 8 8 = .ok (8, []) := by
  decide

/-- C7 (amended): get_file_chunks validates nothing itself: when the
clamped worker count is zero the division file_size // cpu_count raises
ZeroDivisionError (not an InvalidInput error), and on a zero-length file
it succeeds immediately, returning an empty chunk plan. -/
theorem no_invalid_input_validation :
    (∀ (file : List Nat) (cpu_count os_cpu_count : Nat),
      min os_cpu_count cpu_count = 0 →
      get_file_chunks file cpu_count os_cpu_count = .error .zeroDivision) ∧
    (∀ cpu_count os_cpu_count : Nat, 0 < min os_cpu_count cpu_count →
      get_file_chunks ([] : List Nat) cpu_count os_cpu_count =
        .ok (min os_cpu_count cpu_count, [])) := by
  constructor
  · intro file cpu os h
    simp [get_file_chunks, h]
  · intro cpu os h
    obtain ⟨rs, heq, hchain, _⟩ := get_file_chunks_spec [] cpu os h
    have hnil : rs = [] := by
      cases rs with
      | nil => rfl
      | cons a t =>
        exfalso
        have h1 := is_chain_mem_lt 0 (List.length ([] : List Nat)) (a :: t) hchain a (by simp)
        have h2 := is_chain_mem_bounds 0 (List.length ([] : List Nat)) (a :: t) hchain a (by simp)
        simp only [List.length_nil] at h2
        omega
    rw [hnil] at heq
    exact heq

/-- C7 witness: a worker count clamped to zero makes the planner fail with
the division error, and the zero-length file yields the empty plan. -/
theorem no_invalid_input_validation_witness :
    get_file_chunks [65] 0 8 = .error .zeroDivision ∧
    get_file_chunks ([] : List Nat) 8 8 = .ok (min 8 8, []) :=
  ⟨no_invalid_input_validation.1 [65] 0 8 (by decide),
   no_invalid_input_validation.2 8 8 (by decide)⟩


/-- C3: for a nonempty file and positive requested and available worker
counts, get_file_chunks succeeds and its byte ranges are contiguous and
non-overlapping, their union is exactly the interval from 0 to the file
length, and every range end other than the file end sits immediately after
a newline byte. -/
theorem chunk_ranges_partition_and_align (file : List Nat) (cpu_count os_cpu_count : Nat)
    (hcpu : 1 ≤ cpu_count) (hos : 1 ≤ os_cpu_count) (_hfile : 1 ≤ file.length) :
    ∃ rs, get_file_chunks file cpu_count os_cpu_count = .ok (min os_cpu_count cpu_count, rs) ∧
      is_chain 0 file.length rs = true ∧
      rs.Pairwise (fun r r2 => r.2 ≤ r2.1) ∧
      (∀ i, i < file.length → ∃ r ∈ rs, r.1 ≤ i ∧ i < r.2) ∧
      (∀ r ∈ rs, r.2 < file.length → file.getD (r.2 - 1) 0 = NL) := by
  obtain ⟨rs, heq, hchain, hmem⟩ := get_file_chunks_spec file cpu_count os_cpu_count (by omega)
  refine ⟨rs, heq, hchain, is_chain_pairwise 0 file.length rs hchain, ?_, ?_⟩
  · intro i hi
    exact is_chain_coverage 0 file.length rs hchain i (Nat.zero_le i) hi
  · intro r hr hlt
    have hb := (hmem r hr).2
    have h2 := is_chain_mem_lt 0 file.length rs hchain r hr
    rcases hb with h | h
    · have hne : ¬ (r.2 = 0) := by omega
      simp only [is_line_end, if_neg hne, beq_iff_eq] at h
      exact h
    · omega

/-- C3 witness: the plan for the 20-byte file A;5.0,B;10.0,A;15.0 with two
requested workers. -/
theorem chunk_ranges_partition_and_align_witness :
    ∃ rs, get_file_chunks
        [65, 59, 53, 46, 48, 10, 66, 59, 49, 48, 46, 48, 10, 65, 59, 49, 53, 46, 48, 10] 2 8 =
        .ok (min 8 2, rs) ∧
      is_chain 0
        ([65, 59, 53, 46, 48, 10, 66, 59, 49, 48, 46, 48, 10,
          65, 59, 49, 53, 46, 48, 10] : List Nat).length rs = true ∧
      rs.Pairwise (fun r r2 => r.2 ≤ r2.1) ∧
      (∀ i, i < ([65, 59, 53, 46, 48, 10, 66, 59, 49, 48, 46, 48, 10,
          65, 59, 49, 53, 46, 48, 10] : List Nat).length →
        ∃ r ∈ rs, r.1 ≤ i ∧ i < r.2) ∧
      (∀ r ∈ rs, r.2 < ([65, 59, 53, 46, 48, 10, 66, 59, 49, 48, 46, 48, 10,
          65, 59, 49, 53, 46, 48, 10] : List Nat).length →
        ([65, 59, 53, 46, 48, 10, 66, 59, 49, 48, 46, 48, 10,
          65, 59, 49, 53, 46, 48, 10] : List Nat).getD (r.2 - 1) 0 = NL) :=
  chunk_ranges_partition_and_align
    [65, 59, 53, 46, 48, 10, 66, 59, 49, 48, 46, 48, 10, 65, 59, 49, 53, 46, 48, 10] 2 8
    (by decide) (by decide) (by decide)

/-- C8: whenever the clamped worker count is positive, the planning loop of
get_file_chunks terminates with a complete chunk list (the model's fuel
bound of one step per byte is never exhausted) and makes strictly monotonic
progress: every emitted range has start < end, and the ranges chain from 0
to the file length; this covers a target chunk size of 0 and the forward
next_line fallback.  (A clamped count of zero aborts before the loop with
the division error.) -/
theorem chunk_planning_terminates (file : List Nat) (cpu_count os_cpu_count : Nat)
    (hcpu : 1 ≤ min os_cpu_count cpu_count) :
    ∃ rs, get_file_chunks file cpu_count os_cpu_count = .ok (min os_cpu_count cpu_count, rs) ∧
      is_chain 0 file.length rs = true ∧ ∀ r ∈ rs, r.1 < r.2 := by
  obtain ⟨rs, heq, hchain, _⟩ := get_file_chunks_spec file cpu_count os_cpu_count (by omega)
  exact ⟨rs, heq, hchain, is_chain_mem_lt 0 file.length rs hchain⟩

/-- C8 witness: the 8-byte file A;1,B;2 with 20 workers, so the target
chunk size is 8 // 20 = 0 and every iteration takes the collapse-recovery
path through next_line. -/
theorem chunk_planning_terminates_witness :
    ∃ rs, get_file_chunks [65, 59, 49, 10, 66, 59, 50, 10] 20 20 = .ok (min 20 20, rs) ∧
      is_chain 0 ([65, 59, 49, 10, 66, 59, 50, 10] : List Nat).length rs = true ∧
      ∀ r ∈ rs, r.1 < r.2 :=
  chunk_planning_terminates [65, 59, 49, 10, 66, 59, 50, 10] 20 20 (by decide)

/-- C10: on the byte-level model (which coincides with the source's
character counting exactly when every byte is a single-byte character),
whenever get_file_chunks returns a chunk plan, the lines consumed by the
per-chunk aggregator runs, concatenated in chunk order, are exactly the
line decomposition of the whole file — every record is folded into exactly
one chunk's mapping — and each chunk's mapping is the parse-and-fold of
precisely its own lines. -/
theorem records_folded_exactly_once (file : List Nat)
    (cpu_count os_cpu_count c : Nat) (rs : List (Nat × Nat))
    (heq : get_file_chunks file cpu_count os_cpu_count = .ok (c, rs)) :
    (rs.map fun r => lines_upto file r.1 r.2).flatten = read_lines file 0 ∧
    ∀ r ∈ rs, _process_file_chunk file r.1 r.2 = fold_parse (lines_upto file r.1 r.2) := by
  have hcpu : 0 < min os_cpu_count cpu_count := by
    by_contra hc
    have h0 : min os_cpu_count cpu_count = 0 := by omega
    simp [get_file_chunks, h0] at heq
  obtain ⟨rs2, heq2, hchain, hmem⟩ := get_file_chunks_spec file cpu_count os_cpu_count hcpu
  rw [heq] at heq2
  have hrs : rs2 = rs := by
    injection heq2 with h
    exact ((Prod.mk.injEq _ _ _ _).mp h).2.symm
  subst hrs
  constructor
  · exact chain_lines_join file rs2 0 hchain (fun r hr => (hmem r hr).2)
  · intro r _
    exact process_chunk_eq_fold file r.1 r.2

/-- C10 witness: the three-chunk plan of the file A;5.0,B;10.0,A;15.0. -/
theorem records_folded_exactly_once_witness :
    ((([(0, 6), (6, 13), (13, 20)] : List (Nat × Nat)).map fun r =>
        lines_upto [65, 59, 53, 46, 48, 10, 66, 59, 49, 48, 46, 48, 10,
          65, 59, 49, 53, 46, 48, 10] r.1 r.2).flatten =
      read_lines [65, 59, 53, 46, 48, 10, 66, 59, 49, 48, 46, 48, 10,
        65, 59, 49, 53, 46, 48, 10] 0) ∧
    ∀ r ∈ ([(0, 6), (6, 13), (13, 20)] : List (Nat × Nat)),
      _process_file_chunk [65, 59, 53, 46, 48, 10, 66, 59, 49, 48, 46, 48, 10,
          65, 59, 49, 53, 46, 48, 10] r.1 r.2 =
        fold_parse (lines_upto [65, 59, 53, 46, 48, 10, 66, 59, 49, 48, 46, 48, 10,
          65, 59, 49, 53, 46, 48, 10] r.1 r.2) :=
  records_folded_exactly_once
    [65, 59, 53, 46, 48, 10, 66, 59, 49, 48, 46, 48, 10, 65, 59, 49, 53, 46, 48, 10]
    2 8 2 [(0, 6), (6, 13), (13, 20)] (by decide)


/-- C6 (amended): a line with fewer than two semicolon fields or whose
second field does not parse as a float is a hard failure — the chunk run
fails with an uncaught exception (IndexError or ValueError, carrying
neither the line offset nor a MalformedRecord type) and process_file then
produces no output summary — but a line with more than two fields is not
rejected: it is parsed leniently from its first two fields. -/
theorem malformed_line_aborts_without_output :
    (∀ (file : List Nat) (chunk_start chunk_end : Nat),
      (∃ l ∈ lines_upto file chunk_start chunk_end, ∃ er, parse_line l = .error er) →
      ∃ er2, _process_file_chunk file chunk_start chunk_end = .error er2) ∧
    (∀ (file : List Nat) (rs : List (Nat × Nat)) (r : Nat × Nat), r ∈ rs →
      (∃ er, _process_file_chunk file r.1 r.2 = .error er) →
      ∃ er2, process_file file rs = .error er2) ∧
    parse_line [65, 59, 49, 46, 48, 59, 50, 46, 48, 10] = .ok ([65], 1) ∧
    (∃ er, parse_line [65, 59, 110, 111, 116, 97, 110, 117, 109, 98, 101, 114, 10] =
      .error er) ∧
    (∃ er, parse_line [65, 10] = .error er) := by
  refine ⟨?_, ?_, ?_, ?_, ?_⟩
  · intro file s e ⟨l, hl, er, herr⟩
    rcases hres : _process_file_chunk file s e with er2 | m
    · exact ⟨er2, rfl⟩
    · exfalso
      rw [process_chunk_eq_fold] at hres
      obtain ⟨kv, hkv⟩ := fold_parse_ok_all (lines_upto file s e) [] m hres l hl
      rw [herr] at hkv
      exact Except.noConfusion hkv
  · intro file rs r hr ⟨er, herr⟩
    rcases hres : process_file file rs with er2 | out
    · exact ⟨er2, rfl⟩
    · exfalso
      simp only [process_file] at hres
      rcases hc : collect_results (rs.map fun r2 => _process_file_chunk file r2.1 r2.2)
        with er3 | ms
      · rw [hc] at hres
        exact Except.noConfusion hres
      · have hmem2 : _process_file_chunk file r.1 r.2 ∈
            rs.map fun r2 => _process_file_chunk file r2.1 r2.2 :=
          List.mem_map_of_mem _ hr
        obtain ⟨m, hm⟩ := collect_results_ok _ ms hc _ hmem2
        rw [herr] at hm
        exact Except.noConfusion hm
  · norm_num [parse_line, split_semi, parse_float, parse_float_unsigned, is_digit,
      digits_val, NL, SEMI]
  · exact ⟨.valueError [110, 111, 116, 97, 110, 117, 109, 98, 101, 114], by decide⟩
  · exact ⟨.indexError [65, 10], by decide⟩

/-- C6 witness: the chunk holding the single malformed line A;x fails, and
the whole run over that chunk plan fails with no summary. -/
theorem malformed_line_aborts_without_output_witness :
    (∃ er2, _process_file_chunk [65, 59, 120, 10] 0 4 = .error er2) ∧
    (∃ er3, process_file [65, 59, 120, 10] [(0, 4)] = .error er3) :=
  ⟨malformed_line_aborts_without_output.1 [65, 59, 120, 10] 0 4
      ⟨[65, 59, 120, 10], by decide, ⟨.valueError [120], by decide⟩⟩,
   malformed_line_aborts_without_output.2.1 [65, 59, 120, 10] [(0, 4)] (0, 4) (by decide)
      (malformed_line_aborts_without_output.1 [65, 59, 120, 10] 0 4
        ⟨[65, 59, 120, 10], by decide, ⟨.valueError [120], by decide⟩⟩)⟩

/-- C9 counterexample: for the single-entry mapping A = (1, 1, 1, 1) the
printed character stream is followed, after the last (and only) entry, by
a comma, a space and two backspace characters before the closing brace —
it is not the claimed stream that ends directly with the closing brace. -/
theorem display_stream_has_trailing_separator :
    display_measurements [([65], ⟨1, 1, 1, 1⟩)] =
      ['\x7b', 'A', '=', '1', '.', '0', '/', '1', '.', '0', '/', '1', '.', '0',
       ',', ' ', '\x08', '\x08', '\x7d'] ∧
    display_measurements [([65], ⟨1, 1, 1, 1⟩)] ≠
      ['\x7b', 'A', '=', '1', '.', '0', '/', '1', '.', '0', '/', '1', '.', '0', '\x7d'] := by
  have h : display_measurements [([65], ⟨1, 1, 1, 1⟩)] =
      ['\x7b', 'A', '=', '1', '.', '0', '/', '1', '.', '0', '/', '1', '.', '0',
       ',', ' ', '\x08', '\x08', '\x7d'] := by
    norm_num [display_measurements, List.insertionSort, List.orderedInsert, entry_string,
      key_string, fmt1, round_half_even, rfloor, nat_chars, nat_chars_fuel]
  refine ⟨h, ?_⟩
  rw [h]
  decide

/-- C9 (amended): for a nonempty mapping with distinct keys the printed
stream is the opening brace, the entries in strictly ascending
lexicographic key order, each location=min/mean/max with every value
through the one-decimal format and the mean computed as sum/count,
separated by comma-space — followed by one trailing comma-space and two
backspace characters before the closing brace (which a terminal renders as
the claimed form). -/
theorem display_format_sorted_one_decimal (m : Mapping) (hne : m ≠ [])
    (hnd : (m.map Prod.fst).Nodup) :
    ∃ es : Mapping, es.Perm m ∧
      es.Pairwise (fun a b => lex_lt a.1 b.1 = true) ∧
      display_measurements m =
        ['\x7b'] ++ sep_concat (es.map entry_string) ++
          [',', ' ', '\x08', '\x08', '\x7d'] := by
  have hperm := List.perm_insertionSort entry_le m
  refine ⟨List.insertionSort entry_le m, hperm, ?_, ?_⟩
  · have hs : (List.insertionSort entry_le m).Pairwise entry_le :=
      @List.sorted_insertionSort (Key × Stat) entry_le _
        ⟨fun a b => lex_le_total a.1 b.1⟩
        ⟨fun a b c hab hbc => lex_le_trans a.1 b.1 c.1 hab hbc⟩ m
    have hnd2 : ((List.insertionSort entry_le m).map Prod.fst).Nodup :=
      ((hperm.map Prod.fst).nodup_iff).mpr hnd
    have hne2 : (List.insertionSort entry_le m).Pairwise fun a b => a.1 ≠ b.1 := by
      simp only [List.Nodup] at hnd2
      exact List.pairwise_map.mp hnd2
    exact (hs.and hne2).imp fun hx => lex_le_ne_lt _ _ hx.1 hx.2
  · have hne3 : List.insertionSort entry_le m ≠ [] := by
      intro hc
      rw [hc] at hperm
      exact hne hperm.nil_eq.symm
    simp only [display_measurements]
    rw [flatten_sep entry_string (List.insertionSort entry_le m) hne3]
    simp [List.append_assoc]

/-- C9 witness: the two-key mapping inserted in the order B, A is printed
with A before B. -/
theorem display_format_sorted_one_decimal_witness :
    ∃ es : Mapping, es.Perm [([66], ⟨2, 2, 2, 1⟩), ([65], ⟨1, 1, 1, 1⟩)] ∧
      es.Pairwise (fun a b => lex_lt a.1 b.1 = true) ∧
      display_measurements [([66], ⟨2, 2, 2, 1⟩), ([65], ⟨1, 1, 1, 1⟩)] =
        ['\x7b'] ++ sep_concat (es.map entry_string) ++
          [',', ' ', '\x08', '\x08', '\x7d'] :=
  display_format_sorted_one_decimal [([66], ⟨2, 2, 2, 1⟩), ([65], ⟨1, 1, 1, 1⟩)]
    (by decide) (by decide)


/-- C6 counterexample: the line A;2.0;3 splits into three fields, which the
claim says is rejected as malformed with no output; the source parses it
leniently — data[0] and float(data[1]), ignoring the rest — and the chunk
containing only this line succeeds with A folded as 2.0. -/
theorem extra_fields_parse_leniently :
    parse_line [65, 59, 50, 46, 48, 59, 51, 10] = .ok ([65], 2) ∧
    _process_file_chunk [65, 59, 50, 46, 48, 59, 51, 10] 0 8 =
      .ok [([65], ⟨2, 2, 2, 1⟩)] := by
  constructor
  · norm_num [parse_line, split_semi, parse_float, parse_float_unsigned, is_digit,
      digits_val, NL, SEMI]
  · rw [process_chunk_eq_fold]
    have h : lines_upto [65, 59, 50, 46, 48, 59, 51, 10] 0 8 =
        [[65, 59, 50, 46, 48, 59, 51, 10]] := by decide
    rw [h]
    norm_num [fold_parse, fold_parse_from, parse_line, split_semi, parse_float,
      parse_float_unsigned, is_digit, digits_val, mfold, mlookup, NL, SEMI]

end OneBRC
